import Mathlib

/-!
# Verification of the androidDCIMfix classifier / analyzer / rename-copy planner

Shallow embedding of `src/main.py`.  Python `datetime` values (produced by
`datetime.fromtimestamp` from the `os.stat` fields) are modelled directly as a
`Datetime` record of calendar fields; `fromtimestamp` is strictly monotone, so
comparisons between `datetime` values are the lexicographic comparison of the
fields.  A file's stat snapshot is the three converted timestamps.
-/

namespace DCIM

/-- A Python `datetime` value: the fields read by the program
(`year`, `month`, `day`, `hour`, `minute`, `second`) plus the sub-second
part (`micro`), which participates in `datetime` comparison but not in the
generated filename. -/
structure Datetime where
  year : Nat
  month : Nat
  day : Nat
  hour : Nat
  minute : Nat
  second : Nat
  micro : Nat
deriving DecidableEq, Repr

/-- Python `datetime` `<`: lexicographic on the fields. -/
def Datetime.ltP (a b : Datetime) : Prop :=
  a.year < b.year ∨ (a.year = b.year ∧
    (a.month < b.month ∨ (a.month = b.month ∧
      (a.day < b.day ∨ (a.day = b.day ∧
        (a.hour < b.hour ∨ (a.hour = b.hour ∧
          (a.minute < b.minute ∨ (a.minute = b.minute ∧
            (a.second < b.second ∨ (a.second = b.second ∧
              a.micro < b.micro)))))))))))

instance (a b : Datetime) : Decidable (Datetime.ltP a b) := by
  unfold Datetime.ltP; infer_instance

/-- Python `datetime` `<=`. -/
def Datetime.leP (a b : Datetime) : Prop := Datetime.ltP a b ∨ a = b

instance (a b : Datetime) : Decidable (Datetime.leP a b) := by
  unfold Datetime.leP; infer_instance

/-- The `os.stat` snapshot taken in `Mediafile.__init__`, already converted
by `datetime.fromtimestamp` to `datetime` values. -/
structure Stat where
  st_atime : Datetime
  st_mtime : Datetime
  st_ctime : Datetime
deriving DecidableEq, Repr

/-- The file-record data model of `main.py`: the base class `Mediafile`
(unclassified files) and the two concrete `RegularFile` subclasses
`PictureFile` (head `IMG`, extension `jpg`) and `VideoFile` (head `VID`,
extension `mp4`); these are the only `RegularFile`s the program creates.
`index` and `convolution` are the two mutable counters. -/
inductive Mediafile where
  | generic (path : String) (st : Stat)
  | picture (path : String) (st : Stat) (index : Nat) (convolution : Nat)
  | video (path : String) (st : Stat) (index : Nat) (convolution : Nat)
deriving DecidableEq, Repr

namespace Mediafile

def path : Mediafile → String
  | .generic p _ => p
  | .picture p _ _ _ => p
  | .video p _ _ _ => p

def stat : Mediafile → Stat
  | .generic _ s => s
  | .picture _ s _ _ => s
  | .video _ s _ _ => s

def last_access (f : Mediafile) : Datetime := f.stat.st_atime

def last_modification (f : Mediafile) : Datetime := f.stat.st_mtime

def last_metadata_change (f : Mediafile) : Datetime := f.stat.st_ctime

/-- Whether the record is a `RegularFile` (`isinstance(file, RegularFile)`). -/
def isRegular : Mediafile → Bool
  | .generic _ _ => false
  | .picture _ _ _ _ => true
  | .video _ _ _ _ => true

def isPicture : Mediafile → Bool
  | .picture _ _ _ _ => true
  | _ => false

def isVideo : Mediafile → Bool
  | .video _ _ _ _ => true
  | _ => false

/-- `RegularFile._head` ("IMG" for pictures, "VID" for videos). -/
def head : Mediafile → String
  | .generic _ _ => ""
  | .picture _ _ _ _ => "IMG"
  | .video _ _ _ _ => "VID"

/-- `RegularFile._extension` ("jpg" for pictures, "mp4" for videos). -/
def extensionOf : Mediafile → String
  | .generic _ _ => ""
  | .picture _ _ _ _ => "jpg"
  | .video _ _ _ _ => "mp4"

def convolution : Mediafile → Nat
  | .generic _ _ => 0
  | .picture _ _ _ c => c
  | .video _ _ _ c => c

def index : Mediafile → Nat
  | .generic _ _ => 0
  | .picture _ _ i _ => i
  | .video _ _ i _ => i

/-- The `index` setter (`file.index = value`); a no-op on the base class,
which has no such field. -/
def setIndex : Mediafile → Nat → Mediafile
  | .generic p s, _ => .generic p s
  | .picture p s _ c, i => .picture p s i c
  | .video p s _ c, i => .video p s i c

/-- The `convolution` setter (`file.convolution = value`). -/
def setConvolution : Mediafile → Nat → Mediafile
  | .generic p s, _ => .generic p s
  | .picture p s i _, c => .picture p s i c
  | .video p s i _, c => .video p s i c

end Mediafile

/-- Little-endian decimal digits of `n` (fuelled; `fuel ≥ n` suffices). -/
def natDigitsAux : Nat → Nat → List Char
  | 0, _ => []
  | fuel + 1, n =>
    if n = 0 then []
    else Char.ofNat (48 + n % 10) :: natDigitsAux fuel (n / 10)

/-- Decimal rendering of a natural number, as Python's `str`/f-string does. -/
def natStr (n : Nat) : String := if n = 0 then "0" else ⟨(natDigitsAux (n + 1) n).reverse⟩

/-- Python's `{n:02d}`: zero-pad to at least two digits. -/
def pad2 (n : Nat) : String := if n < 10 then "0" ++ natStr n else natStr n

/-- The generated-filename template of `RegularFile.filename`:
`{head}_{year}{month:02d}{day:02d}_{hour:02d}{minute:02d}{second:02d}`
with the `_{convolution}` suffix exactly when `convolution ≠ 0`,
then `.{extension}`. -/
def mkName (head : String) (d : Datetime) (conv : Nat) (ext : String) : String :=
  if conv = 0 then
    head ++ "_" ++ natStr d.year ++ pad2 d.month ++ pad2 d.day ++ "_" ++
      pad2 d.hour ++ pad2 d.minute ++ pad2 d.second ++ "." ++ ext
  else
    head ++ "_" ++ natStr d.year ++ pad2 d.month ++ pad2 d.day ++ "_" ++
      pad2 d.hour ++ pad2 d.minute ++ pad2 d.second ++ "_" ++ natStr conv ++ "." ++ ext

/-- `os.path.basename`: everything after the last `/`. -/
def basename (p : String) : String := ⟨(p.data.reverse.takeWhile (· ≠ '/')).reverse⟩

/-- The `filename` property: the raw basename for a plain `Mediafile`,
the generated name (overridden property) for a `RegularFile`. -/
def Mediafile.filename : Mediafile → String
  | .generic p _ => basename p
  | .picture _ s _ c => mkName "IMG" s.st_mtime c "jpg"
  | .video _ s _ c => mkName "VID" s.st_mtime c "mp4"

/-- Truncation of a timestamp to the second: the part of a `Datetime` that
the filename template reads. -/
def truncSec (d : Datetime) : Datetime := { d with micro := 0 }

/-! ## The filename classifier (`parse_files`)

`parse_files` applies
`re.match(r"(?P<head>DSC|MOV)_(?P<idx>\d{4})(_(?P<conv>\d{1,3}))?\.(?P<ext>JPG|mp4)$", basename)`.
The functions below are a hand-compiled deterministic matcher for that
(anchored) expression: head literal, `_`, exactly four digits, then either
`.` or `_` followed by a maximal run of one to three digits and `.`, then
one of the two extension literals, then the end anchor.  Two points of
Python `re` semantics are modelled faithfully: `$` (without `MULTILINE`)
matches at the end of the string or just before one newline at the end of
the string, and `\d` on a `str` pattern (without `re.ASCII`) matches any
Unicode decimal digit (category Nd), whose value `int()` then parses. -/

/-- Numeric value of an ASCII decimal digit character. -/
def digVal (c : Char) : Nat := c.toNat - 48

/-- Start code points of the Unicode decimal-digit (category Nd) runs, as
in CPython 3.11's `unicodedata`; every run is the ten consecutive code
points with digit values `0..9`. -/
def ndRangeStarts : List Nat :=
  [0x30, 0x660, 0x6f0, 0x7c0, 0x966, 0x9e6, 0xa66, 0xae6, 0xb66, 0xbe6,
   0xc66, 0xce6, 0xd66, 0xde6, 0xe50, 0xed0, 0xf20, 0x1040, 0x1090, 0x17e0,
   0x1810, 0x1946, 0x19d0, 0x1a80, 0x1a90, 0x1b50, 0x1bb0, 0x1c40, 0x1c50,
   0xa620, 0xa8d0, 0xa900, 0xa9d0, 0xa9f0, 0xaa50, 0xabf0, 0xff10, 0x104a0,
   0x10d30, 0x11066, 0x110f0, 0x11136, 0x111d0, 0x112f0, 0x11450, 0x114d0,
   0x11650, 0x116c0, 0x11730, 0x118e0, 0x11950, 0x11c50, 0x11d50, 0x11da0,
   0x16a60, 0x16ac0, 0x16b50, 0x1d7ce, 0x1d7d8, 0x1d7e2, 0x1d7ec, 0x1d7f6,
   0x1e140, 0x1e2f0, 0x1e950, 0x1fbf0]

def ndLookup : List Nat → Nat → Option Nat
  | [], _ => none
  | s :: rest, n => if s ≤ n ∧ n < s + 10 then some (n - s) else ndLookup rest n

/-- The decimal value of a Python `\d` digit (`None` when the character is
not a Unicode decimal digit). -/
def pyDigitVal? (c : Char) : Option Nat := ndLookup ndRangeStarts c.toNat

/-- Python's `\d` character class on `str` patterns. -/
def isPyDigit (c : Char) : Bool := (pyDigitVal? c).isSome

/-- The digit value `int()` assigns to a `\d`-matched character. -/
def pyDigitVal (c : Char) : Nat := (pyDigitVal? c).getD 0

/-- The final `(?P<ext>JPG|mp4)$` part: the extension literal, then `$`,
which matches at the end of the string or just before a single newline at
the end of the string. -/
def matchExt (l : List Char) : Option String :=
  if l = ['J', 'P', 'G'] ∨ l = ['J', 'P', 'G', '\n'] then some "JPG"
  else if l = ['m', 'p', '4'] ∨ l = ['m', 'p', '4', '\n'] then some "mp4"
  else none

/-- Third convolution digit position: after two digits `x y`, the run must
close with `.` here (the expression allows at most three digits). -/
def matchConvC (x y z : Char) (r4 : List Char) (idx : Nat) : Option (Nat × Nat) :=
  match r4 with
  | w :: r5 =>
    if w = '.' then
      (matchExt r5).map (fun _ => (idx, 100 * pyDigitVal x + 10 * pyDigitVal y + pyDigitVal z))
    else none
  | [] => none

/-- Second convolution digit position. -/
def matchConvB (x y : Char) (r3 : List Char) (idx : Nat) : Option (Nat × Nat) :=
  match r3 with
  | z :: r4 =>
    if z = '.' then (matchExt r4).map (fun _ => (idx, 10 * pyDigitVal x + pyDigitVal y))
    else if isPyDigit z then matchConvC x y z r4 idx
    else none
  | [] => none

/-- After the first convolution digit `x`. -/
def matchConvA (x : Char) (r2 : List Char) (idx : Nat) : Option (Nat × Nat) :=
  match r2 with
  | y :: r3 =>
    if y = '.' then (matchExt r3).map (fun _ => (idx, pyDigitVal x))
    else if isPyDigit y then matchConvB x y r3 idx
    else none
  | [] => none

/-- The `(?P<conv>\d{1,3})\.(?P<ext>...)$` part, entered after `_`:
one to three digits, then the dot and extension. -/
def matchConv (r : List Char) (idx : Nat) : Option (Nat × Nat) :=
  match r with
  | x :: r2 => if isPyDigit x then matchConvA x r2 idx else none
  | [] => none

/-- After the four index digits: either `.` and the extension (no
convolution group, so convolution `0`) or `_` and the convolution group. -/
def matchTailRest (idx : Nat) (rest2 : List Char) : Option (Nat × Nat) :=
  match rest2 with
  | x :: r3 =>
    if x = '.' then (matchExt r3).map (fun _ => (idx, 0))
    else if x = '_' then matchConv r3 idx
    else none
  | [] => none

/-- Everything after `{DSC|MOV}_`: four digits, then `.ext` or `_conv.ext`. -/
def matchTail (rest : List Char) : Option (Nat × Nat) :=
  match rest with
  | a :: b :: c :: d :: rest2 =>
    if isPyDigit a ∧ isPyDigit b ∧ isPyDigit c ∧ isPyDigit d then
      matchTailRest (1000 * pyDigitVal a + 100 * pyDigitVal b + 10 * pyDigitVal c
        + pyDigitVal d) rest2
    else none
  | _ => none

/-- The whole regular expression: on success, the captured head literal, the
index (as `int`) and the convolution (as `int`, `0` when absent). -/
def matchName (l : List Char) : Option (String × Nat × Nat) :=
  match l with
  | a :: b :: c :: d :: rest =>
    if (a, b, c, d) = ('D', 'S', 'C', '_') then
      (matchTail rest).map (fun p => ("DSC", p))
    else if (a, b, c, d) = ('M', 'O', 'V', '_') then
      (matchTail rest).map (fun p => ("MOV", p))
    else none
  | _ => none

/-- Python `str.upper` on the captured head (ASCII). -/
def strUpper (s : String) : String := ⟨s.data.map Char.toUpper⟩

/-- One iteration of the `parse_files` loop: the records yielded for one
input path (the generator yields one record per path on both the match and
the no-match branch; the trailing `elif` chain yields nothing for a head
other than `DSC`/`MOV`, which cannot be produced by the expression). -/
def parseOne (path : String) (st : Stat) : List Mediafile :=
  match matchName (basename path).data with
  | none => [.generic path st]
  | some (h, idx, conv) =>
    let headUp := strUpper h
    if headUp = "DSC" then [.picture path st idx conv]
    else if headUp = "MOV" then [.video path st idx conv]
    else []

/-- `parse_files` over a whole listing (each path with its stat snapshot). -/
def parseFiles (l : List (String × Stat)) : List Mediafile :=
  l.flatMap (fun p => parseOne p.1 p.2)

/-! ## The statistics aggregator (`Analysis`) -/

/-- One `if tracker is None or tracker.key > file.key: tracker = file`
statement, for a strict preference relation `better` ("file is strictly
better than the current tracker"). -/
def updBy (better : Mediafile → Mediafile → Prop) [DecidableRel better]
    (cur : Option Mediafile) (f : Mediafile) : Option Mediafile :=
  match cur with
  | none => some f
  | some c => if better f c then some f else some c

/-- `f` has strictly smaller key than `c` (replacement test of a min tracker:
`cur.key > file.key`). -/
def minBetter (key : Mediafile → Datetime) (f c : Mediafile) : Prop :=
  Datetime.ltP (key f) (key c)

/-- `f` has strictly larger key than `c` (replacement test of a max tracker:
`cur.key < file.key`). -/
def maxBetter (key : Mediafile → Datetime) (f c : Mediafile) : Prop :=
  Datetime.ltP (key c) (key f)

/-- Replacement test of the `min_convolution` tracker:
`self.min_convolution.convolution < file.convolution`. -/
def convBetter (f c : Mediafile) : Prop := c.convolution < f.convolution

instance (key : Mediafile → Datetime) : DecidableRel (minBetter key) := by
  unfold minBetter; infer_instance

instance (key : Mediafile → Datetime) : DecidableRel (maxBetter key) := by
  unfold maxBetter; infer_instance

instance : DecidableRel convBetter := by
  unfold convBetter; infer_instance

/-- The running state of `Analysis`. -/
structure Analysis where
  min_atime : Option Mediafile
  max_atime : Option Mediafile
  min_mtime : Option Mediafile
  max_mtime : Option Mediafile
  min_ctime : Option Mediafile
  max_ctime : Option Mediafile
  min_convolution : Option Mediafile
  unusual_filenames : List Mediafile
  total : Nat

/-- `Analysis.__init__`: all trackers unset. -/
def Analysis.init : Analysis :=
  ⟨none, none, none, none, none, none, none, [], 0⟩

/-- `Analysis.analyze(file)`: one fold step. -/
def Analysis.analyze (a : Analysis) (f : Mediafile) : Analysis where
  total := a.total + 1
  min_atime := updBy (minBetter Mediafile.last_access) a.min_atime f
  max_atime := updBy (maxBetter Mediafile.last_access) a.max_atime f
  min_mtime := updBy (minBetter Mediafile.last_modification) a.min_mtime f
  max_mtime := updBy (maxBetter Mediafile.last_modification) a.max_mtime f
  min_ctime := updBy (minBetter Mediafile.last_metadata_change) a.min_ctime f
  max_ctime := updBy (maxBetter Mediafile.last_metadata_change) a.max_ctime f
  min_convolution :=
    if f.isRegular then updBy convBetter a.min_convolution f else a.min_convolution
  unusual_filenames :=
    if f.isRegular then a.unusual_filenames else a.unusual_filenames ++ [f]

/-- `perform_analysis` consumed by `list(...)`: fold `analyze` over the
records in encounter order. -/
def analyzeAll (l : List Mediafile) : Analysis :=
  l.foldl Analysis.analyze Analysis.init

/-! ## The rename/copy planner (`__main__`, copy branch)

The driver sorts the records ascending by `last_modification` and then runs
the loop below; the planner itself receives the sorted list. -/

/-- The loop state: the three per-type counters and `new_filenames`. -/
structure PlanState where
  pics : Nat
  vids : Nat
  other : Nat
  names : List String

def PlanState.init : PlanState := ⟨0, 0, 0, []⟩

/-- The `while file.filename in new_filenames: file.convolution += 1` loop,
fuelled: starting from convolution `c`, return the first convolution whose
generated name (`mk`) is not among `names`.  `names.length + 1` fuel always
suffices because distinct convolutions generate distinct names. -/
def findConvAux (names : List String) (mk : Nat → String) : Nat → Nat → Nat
  | 0, c => c
  | fuel + 1, c => if mk c ∈ names then findConvAux names mk fuel (c + 1) else c

def findConv (names : List String) (mk : Nat → String) : Nat :=
  findConvAux names mk (names.length + 1) 0

/-- One iteration of the copy loop: update the counters, assign `index` and
`convolution` (pictures and videos), and append the record's `filename` to
`new_filenames`.  Returns the new state and the record as mutated. -/
def planStep (s : PlanState) (f : Mediafile) : PlanState × Mediafile :=
  match f with
  | .picture p st _ _ =>
    let pics := s.pics + 1
    let conv := findConv s.names (fun c => mkName "IMG" st.st_mtime c "jpg")
    let f' := Mediafile.picture p st pics conv
    (⟨pics, s.vids, s.other, s.names ++ [f'.filename]⟩, f')
  | .video p st _ _ =>
    let vids := s.vids + 1
    let conv := findConv s.names (fun c => mkName "VID" st.st_mtime c "mp4")
    let f' := Mediafile.video p st vids conv
    (⟨s.pics, vids, s.other, s.names ++ [f'.filename]⟩, f')
  | .generic p st =>
    let f' := Mediafile.generic p st
    (⟨s.pics, s.vids, s.other + 1, s.names ++ [f'.filename]⟩, f')

/-- The copy loop over the (sorted) record list; returns the final state and
the mutated records in order. -/
def planAll (s : PlanState) : List Mediafile → PlanState × List Mediafile
  | [] => (s, [])
  | f :: fs =>
    let sf := planStep s f
    let rest := planAll sf.1 fs
    (rest.1, sf.2 :: rest.2)

/-- The records after one planner run from the empty state. -/
def planRecords (l : List Mediafile) : List Mediafile := (planAll .init l).2

/-- The output filename assigned to each record, in processing order. -/
def assignedNames (l : List Mediafile) : List String :=
  (planRecords l).map Mediafile.filename

/-- The source-path to destination-filename mapping of one run. -/
def planMapping (l : List Mediafile) : List (String × String) :=
  (planRecords l).map (fun f => (f.path, f.filename))

/-! ## Order lemmas for `Datetime` -/

theorem Datetime.ltP_irrefl (a : Datetime) : ¬ Datetime.ltP a a := by
  unfold Datetime.ltP; omega

theorem Datetime.ltP_trans {a b c : Datetime} :
    Datetime.ltP a b → Datetime.ltP b c → Datetime.ltP a c := by
  unfold Datetime.ltP; omega

theorem Datetime.ltP_of_ltP_of_not_ltP {a b c : Datetime} :
    Datetime.ltP a b → ¬ Datetime.ltP c b → Datetime.ltP a c := by
  unfold Datetime.ltP; omega

theorem Datetime.not_ltP_iff {a b : Datetime} :
    ¬ Datetime.ltP a b ↔ Datetime.leP b a := by
  obtain ⟨y, mo, d, h, mi, s, u⟩ := a
  obtain ⟨y', mo', d', h', mi', s', u'⟩ := b
  simp only [Datetime.ltP, Datetime.leP, Datetime.mk.injEq]
  omega

/-! ## Injectivity of the decimal rendering -/

/-- Value of a little-endian decimal digit list. -/
def digitsValLE : List Char → Nat
  | [] => 0
  | c :: cs => (c.toNat - 48) + 10 * digitsValLE cs

theorem natDigitsAux_val : ∀ fuel n, n ≤ fuel → digitsValLE (natDigitsAux fuel n) = n := by
  intro fuel
  induction fuel with
  | zero => intro n hn; interval_cases n; rfl
  | succ fuel ih =>
    intro n hn
    unfold natDigitsAux
    by_cases h0 : n = 0
    · simp [h0, digitsValLE]
    · simp only [h0, if_false, digitsValLE]
      have hm : n % 10 < 10 := Nat.mod_lt _ (by omega)
      have hc : (Char.ofNat (48 + n % 10)).toNat = 48 + n % 10 := by
        interval_cases h : n % 10 <;> decide
      rw [hc, ih (n / 10) (by omega)]
      omega

theorem natStr_ne_zero_of_pos {n : Nat} (hn : 0 < n) : natStr n ≠ natStr 0 := by
  intro h
  have hd : (natStr n).data = (natStr 0).data := congrArg String.data h
  unfold natStr at hd
  rw [if_neg (by omega), if_pos rfl] at hd
  have h2 : (natDigitsAux (n + 1) n).reverse = ['0'] := hd
  have h3 : natDigitsAux (n + 1) n = ['0'] := by
    have := congrArg List.reverse h2
    simpa using this
  have hv := natDigitsAux_val (n + 1) n (by omega)
  rw [h3] at hv
  simp [digitsValLE] at hv
  omega

theorem natStr_inj {m n : Nat} (h : natStr m = natStr n) : m = n := by
  rcases Nat.eq_zero_or_pos m with hm | hm
  · rcases Nat.eq_zero_or_pos n with hn | hn
    · omega
    · exact absurd (hm ▸ h.symm) (natStr_ne_zero_of_pos hn)
  · rcases Nat.eq_zero_or_pos n with hn | hn
    · exact absurd (hn ▸ h) (natStr_ne_zero_of_pos hm)
    · have hd : (natStr m).data = (natStr n).data := congrArg String.data h
      unfold natStr at hd
      rw [if_neg (by omega), if_neg (by omega)] at hd
      have h2 : (natDigitsAux (m + 1) m).reverse = (natDigitsAux (n + 1) n).reverse := hd
      have h3 : natDigitsAux (m + 1) m = natDigitsAux (n + 1) n := by
        have := congrArg List.reverse h2
        simpa using this
      have hm' := natDigitsAux_val (m + 1) m (by omega)
      have hn' := natDigitsAux_val (n + 1) n (by omega)
      rw [h3] at hm'
      omega

/-! ## `mkName` lemmas -/

/-- The part of the generated name before the convolution/extension suffix. -/
def nameStem (head : String) (d : Datetime) : String :=
  head ++ "_" ++ natStr d.year ++ pad2 d.month ++ pad2 d.day ++ "_" ++
    pad2 d.hour ++ pad2 d.minute ++ pad2 d.second

theorem mkName_data (head : String) (d : Datetime) (conv : Nat) (ext : String) :
    (mkName head d conv ext).data =
      (nameStem head d).data ++
        (if conv = 0 then '.' :: ext.data
         else '_' :: (natStr conv).data ++ '.' :: ext.data) := by
  by_cases h : conv = 0 <;>
    simp [mkName, nameStem, h, String.data_append, List.append_assoc]

theorem mkName_inj_conv {head : String} {d : Datetime} {ext : String}
    {c₁ c₂ : Nat} (h : mkName head d c₁ ext = mkName head d c₂ ext) : c₁ = c₂ := by
  have hd := congrArg String.data h
  rw [mkName_data, mkName_data] at hd
  have hsuf := List.append_cancel_left hd
  by_cases h1 : c₁ = 0 <;> by_cases h2 : c₂ = 0 <;>
    simp only [h1, h2, if_true, if_false, ite_true, ite_false] at hsuf ⊢
  · simp at hsuf
  · simp at hsuf
  · have := List.append_cancel_right (List.cons.inj hsuf).2
    exact natStr_inj (String.ext this)

theorem mkName_injective (head : String) (d : Datetime) (ext : String) :
    Function.Injective (fun c => mkName head d c ext) := by
  intro c₁ c₂ h
  exact mkName_inj_conv h

/-- The generated name reads only the to-the-second part of the timestamp. -/
theorem mkName_truncSec {head : String} {d₁ d₂ : Datetime} {conv : Nat} {ext : String}
    (h : truncSec d₁ = truncSec d₂) : mkName head d₁ conv ext = mkName head d₂ conv ext := by
  obtain ⟨y, mo, dd, hh, mi, s, u⟩ := d₁
  obtain ⟨y', mo', dd', hh', mi', s', u'⟩ := d₂
  simp only [truncSec, Datetime.mk.injEq] at h
  obtain ⟨h1, h2, h3, h4, h5, h6, -⟩ := h
  simp [mkName, h1, h2, h3, h4, h5, h6]

/-! ## `findConv` lemmas -/

theorem findConvAux_mem_of_result_mem (names : List String) (mk : Nat → String) :
    ∀ fuel c, mk (findConvAux names mk fuel c) ∈ names → ∀ i ≤ fuel, mk (c + i) ∈ names := by
  intro fuel
  induction fuel with
  | zero =>
    intro c h i hi
    interval_cases i
    simpa [findConvAux] using h
  | succ fuel ih =>
    intro c h i hi
    rw [findConvAux] at h
    by_cases hc : mk c ∈ names
    · rw [if_pos hc] at h
      rcases i with _ | j
      · simpa using hc
      · have := ih (c + 1) h j (by omega)
        have he : c + 1 + j = c + (j + 1) := by omega
        rwa [he] at this
    · rw [if_neg hc] at h
      exact absurd h hc

/-- The while-loop always finds an unassigned name: because distinct
convolutions generate distinct names, at most `names.length` candidates can
be occupied. -/
theorem findConv_not_mem {names : List String} {mk : Nat → String}
    (hinj : Function.Injective mk) : mk (findConv names mk) ∉ names := by
  intro h
  have hall := findConvAux_mem_of_result_mem names mk (names.length + 1) 0 h
  have hsub : (List.range (names.length + 2)).map mk ⊆ names := by
    intro x hx
    rcases List.mem_map.1 hx with ⟨i, hi, rfl⟩
    have : i ≤ names.length + 1 := by
      have := List.mem_range.1 hi; omega
    simpa using hall i this
  have hnd : ((List.range (names.length + 2)).map mk).Nodup :=
    (List.nodup_range _).map hinj
  have hle := (List.subperm_of_subset hnd hsub).length_le
  simp at hle

theorem findConvAux_eq_of_first_free (names : List String) (mk : Nat → String) :
    ∀ k fuel c, k < fuel → (∀ i < k, mk (c + i) ∈ names) → mk (c + k) ∉ names →
      findConvAux names mk fuel c = c + k := by
  intro k
  induction k with
  | zero =>
    intro fuel c hf _ hfree
    rcases fuel with _ | fuel
    · omega
    · rw [findConvAux, if_neg (by simpa using hfree)]
      omega
  | succ k ih =>
    intro fuel c hf hocc hfree
    rcases fuel with _ | fuel
    · omega
    · have hc : mk c ∈ names := by simpa using hocc 0 (by omega)
      rw [findConvAux, if_pos hc]
      have h1 : ∀ i < k, mk (c + 1 + i) ∈ names := by
        intro i hi
        have := hocc (i + 1) (by omega)
        have he : c + (i + 1) = c + 1 + i := by omega
        rwa [he] at this
      have h2 : mk (c + 1 + k) ∉ names := by
        have he : c + 1 + k = c + (k + 1) := by omega
        rwa [he]
      have := ih fuel (c + 1) (by omega) h1 h2
      rw [this]
      omega

/-! ## Planner fold lemmas -/

theorem planStep_names (s : PlanState) (f : Mediafile) :
    (planStep s f).1.names = s.names ++ [(planStep s f).2.filename] := by
  cases f <;> rfl

theorem planAll_names : ∀ (l : List Mediafile) (s : PlanState),
    (planAll s l).1.names = s.names ++ (planAll s l).2.map Mediafile.filename := by
  intro l
  induction l with
  | nil => intro s; simp [planAll]
  | cons f fs ih =>
    intro s
    rw [planAll]
    simp only [List.map_cons]
    rw [ih, planStep_names, List.append_assoc]
    rfl

/-- Each picture/video step appends a name that is fresh for the running
set: the while-loop condition. -/
theorem planStep_fresh {s : PlanState} {f : Mediafile} (hreg : f.isRegular) :
    (planStep s f).2.filename ∉ s.names := by
  cases f with
  | generic p st => simp [Mediafile.isRegular] at hreg
  | picture p st i c =>
    exact findConv_not_mem (mkName_injective "IMG" st.st_mtime "jpg")
  | video p st i c =>
    exact findConv_not_mem (mkName_injective "VID" st.st_mtime "mp4")

theorem planAll_nodup : ∀ (l : List Mediafile) (s : PlanState),
    (∀ f ∈ l, f.isRegular) → s.names.Nodup → (planAll s l).1.names.Nodup := by
  intro l
  induction l with
  | nil => intro s _ hs; simpa [planAll] using hs
  | cons f fs ih =>
    intro s hreg hs
    rw [planAll]
    refine ih (planStep s f).1 (fun g hg => hreg g (List.mem_cons_of_mem _ hg)) ?_
    rw [planStep_names]
    have hfresh := planStep_fresh (s := s) (hreg f (List.mem_cons_self _ _))
    simp [List.nodup_append, hs, hfresh]

/-- The input list is ascending by `last_modification` (the driver's
`sorted(files, key=lambda f: f.last_modification)` postcondition). -/
def sortedByMtime (l : List Mediafile) : Prop :=
  l.Pairwise (fun a b => Datetime.leP a.last_modification b.last_modification)

instance (l : List Mediafile) : Decidable (sortedByMtime l) := by
  unfold sortedByMtime; infer_instance

/-- Core of the same-second scenario: starting with `k` pictures already
processed (so `pics = k` and the name set holds exactly the names with
convolutions `0..k-1`), a run over pictures whose modification times all
agree with `d` to the second assigns convolutions `k, k+1, ...` and leaves
the name set at convolutions `0..k+n-1`. -/
theorem planAll_same_second (d : Datetime) :
    ∀ (l : List Mediafile) (k v o : Nat),
      (∀ f ∈ l, ∃ p st i c, f = Mediafile.picture p st i c ∧
        truncSec st.st_mtime = truncSec d) →
      ((planAll ⟨k, v, o, (List.range k).map (fun c => mkName "IMG" d c "jpg")⟩ l).2.map
          Mediafile.convolution = List.range' k l.length ∧
        (planAll ⟨k, v, o, (List.range k).map (fun c => mkName "IMG" d c "jpg")⟩ l).1.names
          = (List.range (k + l.length)).map (fun c => mkName "IMG" d c "jpg")) := by
  intro l
  induction l with
  | nil => intro k v o _; simp [planAll, List.range']
  | cons f fs ih =>
    intro k v o h
    obtain ⟨p, st, i, c, rfl, htr⟩ := h f (List.mem_cons_self _ _)
    have hmkf : (fun c => mkName "IMG" st.st_mtime c "jpg")
        = (fun c => mkName "IMG" d c "jpg") := by
      funext c; exact mkName_truncSec htr
    have hlen : ((List.range k).map (fun c => mkName "IMG" d c "jpg")).length = k := by simp
    have hconv : findConv ((List.range k).map (fun c => mkName "IMG" d c "jpg"))
        (fun c => mkName "IMG" d c "jpg") = k := by
      have heq := findConvAux_eq_of_first_free
        ((List.range k).map (fun c => mkName "IMG" d c "jpg"))
        (fun c => mkName "IMG" d c "jpg")
        k (((List.range k).map (fun c => mkName "IMG" d c "jpg")).length + 1) 0
        (by rw [hlen]; omega)
        (fun i hi => by
          simpa using List.mem_map.2 ⟨i, List.mem_range.2 hi, rfl⟩)
        (by
          simp only [Nat.zero_add]
          intro hmem
          rcases List.mem_map.1 hmem with ⟨j, hj, hje⟩
          have hjk := mkName_inj_conv hje
          rw [hjk] at hj
          exact absurd (List.mem_range.1 hj) (lt_irrefl k))
      simpa [findConv] using heq
    have hstep : planStep ⟨k, v, o, (List.range k).map (fun c => mkName "IMG" d c "jpg")⟩
        (Mediafile.picture p st i c)
        = (⟨k + 1, v, o, (List.range (k + 1)).map (fun c => mkName "IMG" d c "jpg")⟩,
            Mediafile.picture p st (k + 1) k) := by
      simp only [planStep, hmkf, hconv, Mediafile.filename, List.range_succ, List.map_append,
        List.map_cons, List.map_nil]
      rw [mkName_truncSec htr]
    have hrest := ih (k + 1) v o (fun g hg => h g (List.mem_cons_of_mem _ hg))
    rw [planAll]
    simp only [hstep]
    constructor
    · simp only [List.map_cons, Mediafile.convolution, hrest.1, List.length_cons]
      rfl
    · rw [hrest.2, List.length_cons]
      have : k + 1 + fs.length = k + (fs.length + 1) := by omega
      rw [this]

/-! ## The mutable-field-independence relation for the planner (C8) -/

/-- Two records of the same variant, path and stat snapshot; `index` and
`convolution` (the fields the planner itself overwrites) are free. -/
def sameShape : Mediafile → Mediafile → Prop
  | .generic p st, .generic q st' => p = q ∧ st = st'
  | .picture p st _ _, .picture q st' _ _ => p = q ∧ st = st'
  | .video p st _ _, .video q st' _ _ => p = q ∧ st = st'
  | _, _ => False

theorem planStep_sameShape {f g : Mediafile} (s : PlanState) (h : sameShape f g) :
    planStep s f = planStep s g := by
  cases f <;> cases g <;> try exact h.elim
  all_goals
    obtain ⟨h1, h2⟩ := h
    subst h1
    subst h2
    rfl

theorem planAll_sameShape : ∀ {l₁ l₂ : List Mediafile} (s : PlanState),
    List.Forall₂ sameShape l₁ l₂ → planAll s l₁ = planAll s l₂ := by
  intro l₁ l₂ s h
  induction h generalizing s with
  | nil => rfl
  | cons hfg _ ih =>
    rw [planAll, planAll, planStep_sameShape _ hfg, ih]

/-! ## Aggregator fold lemmas -/

theorem Datetime.ltP_of_not_ltP_of_ltP {a b c : Datetime} :
    ¬ Datetime.ltP c b → Datetime.ltP c a → Datetime.ltP b a := by
  unfold Datetime.ltP; omega

/-- The value a tracker holds after folding over `l`, having started at `t`. -/
def pickFold (better : Mediafile → Mediafile → Prop) [DecidableRel better]
    (t : Mediafile) (l : List Mediafile) : Mediafile :=
  l.foldl (fun t f => if better f t then f else t) t

theorem foldl_updBy_some (better : Mediafile → Mediafile → Prop) [DecidableRel better] :
    ∀ (l : List Mediafile) (t : Mediafile),
      l.foldl (updBy better) (some t) = some (pickFold better t l) := by
  intro l
  induction l with
  | nil => intro t; rfl
  | cons f fs ih =>
    intro t
    rw [List.foldl_cons]
    have h1 : updBy better (some t) f = some (if better f t then f else t) := by
      by_cases hb : better f t <;> simp [updBy, hb]
    rw [h1, ih]
    rfl

theorem pickFold_spec (better : Mediafile → Mediafile → Prop) [DecidableRel better]
    (hirr : ∀ f, ¬ better f f)
    (htr : ∀ {a b c}, better a b → better b c → better a c)
    (hlin : ∀ {a b c}, better a c → ¬ better b c → better a b) :
    ∀ (l pre : List Mediafile) (t : Mediafile),
      t ∈ pre → (∀ f ∈ pre, ¬ better f t) →
      (∃ l₁ l₂, pre = l₁ ++ t :: l₂ ∧ ∀ f ∈ l₁, better t f) →
      (pickFold better t l ∈ pre ++ l ∧
        (∀ f ∈ pre ++ l, ¬ better f (pickFold better t l)) ∧
        ∃ l₁ l₂, pre ++ l = l₁ ++ (pickFold better t l) :: l₂ ∧
          ∀ f ∈ l₁, better (pickFold better t l) f) := by
  intro l
  induction l with
  | nil =>
    intro pre t h1 h2 h3
    exact ⟨by simpa [pickFold] using h1, by simpa [pickFold] using h2,
      by simpa [pickFold] using h3⟩
  | cons f fs ih =>
    intro pre t h1 h2 h3
    have hstep : pickFold better t (f :: fs)
        = pickFold better (if better f t then f else t) fs := rfl
    by_cases hb : better f t
    · rw [hstep, if_pos hb]
      have h1' : f ∈ pre ++ [f] := by simp
      have h2' : ∀ g ∈ pre ++ [f], ¬ better g f := by
        intro g hg
        rcases List.mem_append.1 hg with hg | hg
        · exact fun hgf => h2 g hg (htr hgf hb)
        · simp only [List.mem_singleton] at hg
          subst hg
          exact hirr _
      have h3' : ∃ l₁ l₂, pre ++ [f] = l₁ ++ f :: l₂ ∧ ∀ g ∈ l₁, better f g :=
        ⟨pre, [], by simp, fun g hg => hlin hb (h2 g hg)⟩
      have hres := ih (pre ++ [f]) f h1' h2' h3'
      simpa [List.append_assoc] using hres
    · rw [hstep, if_neg hb]
      have h1' : t ∈ pre ++ [f] := List.mem_append.2 (Or.inl h1)
      have h2' : ∀ g ∈ pre ++ [f], ¬ better g t := by
        intro g hg
        rcases List.mem_append.1 hg with hg | hg
        · exact h2 g hg
        · simp only [List.mem_singleton] at hg
          subst hg
          exact hb
      have h3' : ∃ l₁ l₂, pre ++ [f] = l₁ ++ t :: l₂ ∧ ∀ g ∈ l₁, better t g := by
        obtain ⟨l₁, l₂, heq, hl₁⟩ := h3
        exact ⟨l₁, l₂ ++ [f], by rw [heq]; simp, hl₁⟩
      have hres := ih (pre ++ [f]) t h1' h2' h3'
      simpa [List.append_assoc] using hres

theorem foldl_updBy_none_spec (better : Mediafile → Mediafile → Prop) [DecidableRel better]
    (hirr : ∀ f, ¬ better f f)
    (htr : ∀ {a b c}, better a b → better b c → better a c)
    (hlin : ∀ {a b c}, better a c → ¬ better b c → better a b) :
    ∀ l : List Mediafile, l ≠ [] →
      ∃ t, l.foldl (updBy better) none = some t ∧ t ∈ l ∧
        (∀ f ∈ l, ¬ better f t) ∧
        ∃ l₁ l₂, l = l₁ ++ t :: l₂ ∧ ∀ f ∈ l₁, better t f := by
  intro l hne
  rcases l with _ | ⟨f, fs⟩
  · exact absurd rfl hne
  · rw [List.foldl_cons]
    rw [show updBy better none f = some f from rfl, foldl_updBy_some]
    refine ⟨pickFold better f fs, rfl, ?_⟩
    have hres := pickFold_spec better hirr htr hlin fs [f] f (by simp)
      (by intro g hg; simp only [List.mem_singleton] at hg; subst hg; exact hirr _)
      ⟨[], [], by simp, by simp⟩
    simpa using hres

theorem analyzeAll_min_atime : ∀ (l : List Mediafile) (a : Analysis),
    (l.foldl Analysis.analyze a).min_atime
      = l.foldl (updBy (minBetter Mediafile.last_access)) a.min_atime := by
  intro l
  induction l with
  | nil => intro a; rfl
  | cons f fs ih =>
    intro a
    rw [List.foldl_cons, List.foldl_cons]
    exact ih (a.analyze f)

theorem analyzeAll_max_atime : ∀ (l : List Mediafile) (a : Analysis),
    (l.foldl Analysis.analyze a).max_atime
      = l.foldl (updBy (maxBetter Mediafile.last_access)) a.max_atime := by
  intro l
  induction l with
  | nil => intro a; rfl
  | cons f fs ih =>
    intro a
    rw [List.foldl_cons, List.foldl_cons]
    exact ih (a.analyze f)

theorem analyzeAll_min_mtime : ∀ (l : List Mediafile) (a : Analysis),
    (l.foldl Analysis.analyze a).min_mtime
      = l.foldl (updBy (minBetter Mediafile.last_modification)) a.min_mtime := by
  intro l
  induction l with
  | nil => intro a; rfl
  | cons f fs ih =>
    intro a
    rw [List.foldl_cons, List.foldl_cons]
    exact ih (a.analyze f)

theorem analyzeAll_max_mtime : ∀ (l : List Mediafile) (a : Analysis),
    (l.foldl Analysis.analyze a).max_mtime
      = l.foldl (updBy (maxBetter Mediafile.last_modification)) a.max_mtime := by
  intro l
  induction l with
  | nil => intro a; rfl
  | cons f fs ih =>
    intro a
    rw [List.foldl_cons, List.foldl_cons]
    exact ih (a.analyze f)

theorem analyzeAll_min_ctime : ∀ (l : List Mediafile) (a : Analysis),
    (l.foldl Analysis.analyze a).min_ctime
      = l.foldl (updBy (minBetter Mediafile.last_metadata_change)) a.min_ctime := by
  intro l
  induction l with
  | nil => intro a; rfl
  | cons f fs ih =>
    intro a
    rw [List.foldl_cons, List.foldl_cons]
    exact ih (a.analyze f)

theorem analyzeAll_max_ctime : ∀ (l : List Mediafile) (a : Analysis),
    (l.foldl Analysis.analyze a).max_ctime
      = l.foldl (updBy (maxBetter Mediafile.last_metadata_change)) a.max_ctime := by
  intro l
  induction l with
  | nil => intro a; rfl
  | cons f fs ih =>
    intro a
    rw [List.foldl_cons, List.foldl_cons]
    exact ih (a.analyze f)

theorem analyzeAll_min_convolution : ∀ (l : List Mediafile) (a : Analysis),
    (l.foldl Analysis.analyze a).min_convolution
      = (l.filter Mediafile.isRegular).foldl (updBy convBetter) a.min_convolution := by
  intro l
  induction l with
  | nil => intro a; rfl
  | cons f fs ih =>
    intro a
    rw [List.foldl_cons, ih (a.analyze f)]
    by_cases hr : f.isRegular
    · rw [List.filter_cons_of_pos hr, List.foldl_cons]
      have : (a.analyze f).min_convolution = updBy convBetter a.min_convolution f := by
        simp [Analysis.analyze, hr]
      rw [this]
    · rw [List.filter_cons_of_neg (by simpa using hr)]
      have : (a.analyze f).min_convolution = a.min_convolution := by
        simp [Analysis.analyze, hr]
      rw [this]

theorem analyzeAll_unusual : ∀ (l : List Mediafile) (a : Analysis),
    (l.foldl Analysis.analyze a).unusual_filenames
      = a.unusual_filenames ++ l.filter (fun f => !f.isRegular) := by
  intro l
  induction l with
  | nil => intro a; simp
  | cons f fs ih =>
    intro a
    rw [List.foldl_cons, ih (a.analyze f)]
    by_cases hr : f.isRegular
    · rw [List.filter_cons_of_neg (by simp [hr])]
      have : (a.analyze f).unusual_filenames = a.unusual_filenames := by
        simp [Analysis.analyze, hr]
      rw [this]
    · rw [List.filter_cons_of_pos (by simpa using hr)]
      have : (a.analyze f).unusual_filenames = a.unusual_filenames ++ [f] := by
        simp [Analysis.analyze, hr]
      rw [this, List.append_assoc]
      rfl

theorem analyzeAll_total : ∀ (l : List Mediafile) (a : Analysis),
    (l.foldl Analysis.analyze a).total = a.total + l.length := by
  intro l
  induction l with
  | nil => intro a; simp
  | cons f fs ih =>
    intro a
    rw [List.foldl_cons, ih (a.analyze f)]
    have : (a.analyze f).total = a.total + 1 := rfl
    rw [this, List.length_cons]
    omega

/-- What it means for a min-by-`key` tracker to be correct over `l`:
it holds a record of `l` whose key is less-or-equal every record's key,
and every record strictly before it has a strictly greater key
(first-encountered wins ties). -/
def IsMinTracker (key : Mediafile → Datetime) (l : List Mediafile)
    (o : Option Mediafile) : Prop :=
  ∃ t, o = some t ∧ t ∈ l ∧ (∀ f ∈ l, Datetime.leP (key t) (key f)) ∧
    ∃ l₁ l₂, l = l₁ ++ t :: l₂ ∧ ∀ f ∈ l₁, Datetime.ltP (key t) (key f)

/-- Mirror image of `IsMinTracker` for the max trackers. -/
def IsMaxTracker (key : Mediafile → Datetime) (l : List Mediafile)
    (o : Option Mediafile) : Prop :=
  ∃ t, o = some t ∧ t ∈ l ∧ (∀ f ∈ l, Datetime.leP (key f) (key t)) ∧
    ∃ l₁ l₂, l = l₁ ++ t :: l₂ ∧ ∀ f ∈ l₁, Datetime.ltP (key f) (key t)

theorem minTracker_correct (key : Mediafile → Datetime) (l : List Mediafile)
    (hne : l ≠ []) : IsMinTracker key l (l.foldl (updBy (minBetter key)) none) := by
  obtain ⟨t, heq, hmem, hbest, l₁, l₂, hsplit, hfirst⟩ :=
    foldl_updBy_none_spec (minBetter key)
      (fun f => Datetime.ltP_irrefl _)
      (fun hab hbc => Datetime.ltP_trans hab hbc)
      (fun hac hbc => Datetime.ltP_of_ltP_of_not_ltP hac hbc)
      l hne
  exact ⟨t, heq, hmem,
    fun f hf => Datetime.not_ltP_iff.1 (hbest f hf),
    l₁, l₂, hsplit, hfirst⟩

theorem maxTracker_correct (key : Mediafile → Datetime) (l : List Mediafile)
    (hne : l ≠ []) : IsMaxTracker key l (l.foldl (updBy (maxBetter key)) none) := by
  obtain ⟨t, heq, hmem, hbest, l₁, l₂, hsplit, hfirst⟩ :=
    foldl_updBy_none_spec (maxBetter key)
      (fun f => Datetime.ltP_irrefl _)
      (fun hab hbc => Datetime.ltP_trans hbc hab)
      (fun hac hbc => Datetime.ltP_of_not_ltP_of_ltP hbc hac)
      l hne
  exact ⟨t, heq, hmem,
    fun f hf => Datetime.not_ltP_iff.1 (hbest f hf),
    l₁, l₂, hsplit, hfirst⟩

theorem foldl_updBy_isSome (better : Mediafile → Mediafile → Prop) [DecidableRel better] :
    ∀ l : List Mediafile, (l.foldl (updBy better) none).isSome ↔ l ≠ [] := by
  intro l
  rcases l with _ | ⟨f, fs⟩
  · simp
  · rw [List.foldl_cons, show updBy better none f = some f from rfl, foldl_updBy_some]
    simp

/-- Splitting a list at an element of its filtered sublist. -/
theorem filter_split {α : Type} (p : α → Bool) :
    ∀ (l l₁ l₂ : List α) (t : α), l.filter p = l₁ ++ t :: l₂ →
      ∃ L₁ L₂, l = L₁ ++ t :: L₂ ∧ L₁.filter p = l₁ := by
  intro l
  induction l with
  | nil =>
    intro l₁ l₂ t h
    rw [List.filter_nil] at h
    exact absurd h.symm (List.append_ne_nil_of_right_ne_nil _ (List.cons_ne_nil _ _))
  | cons x xs ih =>
    intro l₁ l₂ t h
    by_cases hp : p x
    · rw [List.filter_cons_of_pos hp] at h
      rcases l₁ with _ | ⟨y, ys⟩
      · simp only [List.nil_append] at h ⊢
        obtain ⟨rfl, -⟩ := List.cons.inj h
        exact ⟨[], xs, rfl, rfl⟩
      · rw [List.cons_append] at h
        obtain ⟨rfl, h2⟩ := List.cons.inj h
        obtain ⟨L₁, L₂, rfl, hfil⟩ := ih ys l₂ t h2
        exact ⟨x :: L₁, L₂, rfl, by rw [List.filter_cons_of_pos hp, hfil]⟩
    · rw [List.filter_cons_of_neg (by simpa using hp)] at h
      obtain ⟨L₁, L₂, rfl, hfil⟩ := ih l₁ l₂ t h
      exact ⟨x :: L₁, L₂, rfl, by rw [List.filter_cons_of_neg (by simpa using hp), hfil]⟩

/-! ## Characterisation of the classifier's regular expression -/

/-- Decimal value of a big-endian ASCII digit string (how `int` reads a
grammar capture; leading zeros are ignored). -/
def decVal (ds : List Char) : Nat := ds.foldl (fun n c => 10 * n + digVal c) 0

/-- An ASCII decimal digit: the digits the specification's grammar speaks
of. -/
def isAsciiDigit (c : Char) : Bool := decide (48 ≤ c.toNat ∧ c.toNat ≤ 57)

/-- All characters are ASCII decimal digits. -/
def DigitStr (cs : List Char) : Prop := ∀ c ∈ cs, isAsciiDigit c

instance (cs : List Char) : Decidable (DigitStr cs) := by
  unfold DigitStr; infer_instance

/-- The classification grammar as the specification states it:
`{DSC|MOV}_{4-digit index}[_{1-3 digit disambiguator}].{JPG|mp4}`,
anchored on the whole basename.  `ds` is the index capture, `cs` the
(possibly absent) convolution capture, `e` the extension literal. -/
def GrammarMatch (l : List Char) (head : String) (ds cs : List Char) (e : String) : Prop :=
  (head = "DSC" ∨ head = "MOV") ∧ ds.length = 4 ∧ DigitStr ds ∧
  (e = "JPG" ∨ e = "mp4") ∧
  ((cs = [] ∧ l = head.data ++ '_' :: (ds ++ '.' :: e.data)) ∨
    (1 ≤ cs.length ∧ cs.length ≤ 3 ∧ DigitStr cs ∧
      l = head.data ++ '_' :: (ds ++ '_' :: (cs ++ '.' :: e.data))))

instance (l : List Char) (head : String) (ds cs : List Char) (e : String) :
    Decidable (GrammarMatch l head ds cs e) := by
  unfold GrammarMatch; infer_instance

/-- ASCII digits sit in the first Nd run, with the expected value. -/
theorem pyDigitVal?_of_ascii {c : Char} (h : isAsciiDigit c) :
    pyDigitVal? c = some (digVal c) := by
  simp only [isAsciiDigit, decide_eq_true_eq] at h
  show ndLookup (0x30 :: _) c.toNat = _
  rw [ndLookup, if_pos ⟨h.1, by omega⟩]
  rfl

theorem isPyDigit_of_ascii {c : Char} (h : isAsciiDigit c) : isPyDigit c := by
  simp [isPyDigit, pyDigitVal?_of_ascii h]

theorem pyDigitVal_of_ascii {c : Char} (h : isAsciiDigit c) :
    pyDigitVal c = digVal c := by
  simp [pyDigitVal, pyDigitVal?_of_ascii h]

theorem ascii_digit_ne_dot {c : Char} (h : isAsciiDigit c) : ¬ c = '.' := by
  intro he
  subst he
  exact absurd h (by decide)

theorem decVal_one (x : Char) : decVal [x] = digVal x := by
  simp [decVal]

theorem decVal_two (x y : Char) : decVal [x, y] = 10 * digVal x + digVal y := by
  simp [decVal]

theorem decVal_three (x y z : Char) :
    decVal [x, y, z] = 100 * digVal x + 10 * digVal y + digVal z := by
  simp [decVal]
  ring

theorem decVal_four (a b c d : Char) :
    decVal [a, b, c, d] = 1000 * digVal a + 100 * digVal b + 10 * digVal c + digVal d := by
  simp [decVal]
  ring

/-- The end anchor accepts each extension literal at the exact end of the
string (the no-trailing-newline case of `$`). -/
theorem matchExt_data {e : String} (he : e = "JPG" ∨ e = "mp4") :
    matchExt e.data = some e := by
  rcases he with rfl | rfl <;> decide

/-- Completeness of the convolution matcher on grammar captures. -/
theorem matchConv_complete {cs : List Char} {e : String} (idx : Nat)
    (h1 : 1 ≤ cs.length) (h2 : cs.length ≤ 3) (hdig : DigitStr cs)
    (he : e = "JPG" ∨ e = "mp4") :
    matchConv (cs ++ '.' :: e.data) idx = some (idx, decVal cs) := by
  have hext : matchExt e.data = some e := matchExt_data he
  rcases cs with _ | ⟨x, _ | ⟨y, _ | ⟨z, _ | ⟨w, tl⟩⟩⟩⟩
  · simp at h1
  · have hx : isAsciiDigit x := hdig x (by simp)
    simp only [List.cons_append, List.nil_append, matchConv, matchConvA]
    rw [if_pos (isPyDigit_of_ascii hx), if_pos trivial, hext]
    simp [decVal_one, pyDigitVal_of_ascii hx]
  · have hx : isAsciiDigit x := hdig x (by simp)
    have hy : isAsciiDigit y := hdig y (by simp)
    simp only [List.cons_append, List.nil_append, matchConv, matchConvA, matchConvB]
    rw [if_pos (isPyDigit_of_ascii hx), if_neg (ascii_digit_ne_dot hy),
      if_pos (isPyDigit_of_ascii hy), if_pos trivial, hext]
    simp [decVal_two, pyDigitVal_of_ascii hx, pyDigitVal_of_ascii hy]
  · have hx : isAsciiDigit x := hdig x (by simp)
    have hy : isAsciiDigit y := hdig y (by simp)
    have hz : isAsciiDigit z := hdig z (by simp)
    simp only [List.cons_append, List.nil_append, matchConv, matchConvA, matchConvB,
      matchConvC]
    rw [if_pos (isPyDigit_of_ascii hx), if_neg (ascii_digit_ne_dot hy),
      if_pos (isPyDigit_of_ascii hy), if_neg (ascii_digit_ne_dot hz),
      if_pos (isPyDigit_of_ascii hz), if_pos trivial, hext]
    simp [decVal_three, pyDigitVal_of_ascii hx, pyDigitVal_of_ascii hy,
      pyDigitVal_of_ascii hz]
  · simp at h2

/-- Completeness of the tail matcher on grammar captures. -/
theorem matchTail_complete {tail : List Char} {ds cs : List Char} {e : String}
    (hlen : ds.length = 4) (hdig : DigitStr ds) (he : e = "JPG" ∨ e = "mp4")
    (hcase : (cs = [] ∧ tail = ds ++ '.' :: e.data) ∨
      (1 ≤ cs.length ∧ cs.length ≤ 3 ∧ DigitStr cs ∧
        tail = ds ++ '_' :: (cs ++ '.' :: e.data))) :
    matchTail tail = some (decVal ds, decVal cs) := by
  have hext : matchExt e.data = some e := matchExt_data he
  rcases ds with _ | ⟨a, ds⟩
  · simp at hlen
  rcases ds with _ | ⟨b, ds⟩
  · simp at hlen
  rcases ds with _ | ⟨c, ds⟩
  · simp at hlen
  rcases ds with _ | ⟨d, ds⟩
  · simp at hlen
  rcases ds with _ | ⟨d5, tl⟩
  swap
  · simp at hlen
  have ha : isAsciiDigit a := hdig a (by simp)
  have hb : isAsciiDigit b := hdig b (by simp)
  have hc : isAsciiDigit c := hdig c (by simp)
  have hdd : isAsciiDigit d := hdig d (by simp)
  have hpv : 1000 * pyDigitVal a + 100 * pyDigitVal b + 10 * pyDigitVal c + pyDigitVal d
      = decVal [a, b, c, d] := by
    rw [pyDigitVal_of_ascii ha, pyDigitVal_of_ascii hb, pyDigitVal_of_ascii hc,
      pyDigitVal_of_ascii hdd, decVal_four]
  rcases hcase with ⟨rfl, rfl⟩ | ⟨h1, h2, h3, rfl⟩
  · simp only [List.cons_append, List.nil_append, matchTail]
    rw [if_pos ⟨isPyDigit_of_ascii ha, isPyDigit_of_ascii hb, isPyDigit_of_ascii hc,
      isPyDigit_of_ascii hdd⟩]
    simp only [matchTailRest]
    rw [if_pos trivial, hext, hpv]
    simp [decVal]
  · simp only [List.cons_append, List.nil_append, matchTail]
    rw [if_pos ⟨isPyDigit_of_ascii ha, isPyDigit_of_ascii hb, isPyDigit_of_ascii hc,
      isPyDigit_of_ascii hdd⟩]
    simp only [matchTailRest]
    rw [if_neg (by decide : ¬ ('_' : Char) = '.'), if_pos trivial]
    rw [matchConv_complete _ h1 h2 h3 he, hpv]

/-- A name matching the specification grammar is matched by the program's
expression, with the same head and captured values. -/
theorem matchName_complete {l : List Char} {h : String} {ds cs : List Char} {e : String}
    (hg : GrammarMatch l h ds cs e) :
    matchName l = some (h, decVal ds, decVal cs) := by
  obtain ⟨hhead, hlen, hdig, he, hcase⟩ := hg
  rcases hhead with rfl | rfl
  · rcases hcase with ⟨rfl, rfl⟩ | ⟨h1, h2, h3, rfl⟩
    · show matchName ('D' :: 'S' :: 'C' :: '_' :: (ds ++ '.' :: e.data)) = _
      simp only [matchName]
      rw [if_pos trivial, matchTail_complete hlen hdig he (Or.inl ⟨rfl, rfl⟩)]
      rfl
    · show matchName ('D' :: 'S' :: 'C' :: '_' :: (ds ++ '_' :: (cs ++ '.' :: e.data))) = _
      simp only [matchName]
      rw [if_pos trivial, matchTail_complete hlen hdig he (Or.inr ⟨h1, h2, h3, rfl⟩)]
      rfl
  · rcases hcase with ⟨rfl, rfl⟩ | ⟨h1, h2, h3, rfl⟩
    · show matchName ('M' :: 'O' :: 'V' :: '_' :: (ds ++ '.' :: e.data)) = _
      simp only [matchName]
      rw [if_pos trivial, matchTail_complete hlen hdig he (Or.inl ⟨rfl, rfl⟩)]
      rfl
    · show matchName ('M' :: 'O' :: 'V' :: '_' :: (ds ++ '_' :: (cs ++ '.' :: e.data))) = _
      simp only [matchName]
      rw [if_pos trivial, matchTail_complete hlen hdig he (Or.inr ⟨h1, h2, h3, rfl⟩)]
      rfl

/-- A successful match can only capture the literal heads. -/
theorem matchName_heads {l : List Char} {h : String} {i cv : Nat}
    (hm : matchName l = some (h, i, cv)) : h = "DSC" ∨ h = "MOV" := by
  rcases l with _ | ⟨a, _ | ⟨b, _ | ⟨c, _ | ⟨d, rest⟩⟩⟩⟩ <;> try exact Option.noConfusion hm
  simp only [matchName] at hm
  by_cases h1 : (a, b, c, d) = ('D', 'S', 'C', '_')
  · rw [if_pos h1] at hm
    rcases Option.map_eq_some'.1 hm with ⟨p, -, heq⟩
    exact Or.inl (congrArg (fun q => q.1) heq).symm
  rw [if_neg h1] at hm
  by_cases h2 : (a, b, c, d) = ('M', 'O', 'V', '_')
  · rw [if_pos h2] at hm
    rcases Option.map_eq_some'.1 hm with ⟨p, -, heq⟩
    exact Or.inr (congrArg (fun q => q.1) heq).symm
  rw [if_neg h2] at hm
  exact absurd hm (by simp)

/-- The expression is case-sensitive: a lower-case first letter never
matches. -/

theorem matchName_lower_d (cs : List Char) : matchName ('d' :: cs) = none := by
  rcases cs with _ | ⟨b, _ | ⟨c, _ | ⟨d, rest⟩⟩⟩ <;> simp [matchName]

theorem matchName_lower_m (cs : List Char) : matchName ('m' :: cs) = none := by
  rcases cs with _ | ⟨b, _ | ⟨c, _ | ⟨d, rest⟩⟩⟩ <;> simp [matchName]

/-- `parseOne` by cases on the expression's result. -/
theorem parseOne_none {path : String} {st : Stat}
    (hm : matchName (basename path).data = none) :
    parseOne path st = [Mediafile.generic path st] := by
  unfold parseOne
  rw [hm]

theorem parseOne_dsc {path : String} {st : Stat} {i cv : Nat}
    (hm : matchName (basename path).data = some ("DSC", i, cv)) :
    parseOne path st = [Mediafile.picture path st i cv] := by
  unfold parseOne
  rw [hm]
  have hup : strUpper "DSC" = "DSC" := by decide
  simp [hup]

theorem parseOne_mov {path : String} {st : Stat} {i cv : Nat}
    (hm : matchName (basename path).data = some ("MOV", i, cv)) :
    parseOne path st = [Mediafile.video path st i cv] := by
  unfold parseOne
  rw [hm]
  have hup : strUpper "MOV" = "MOV" := by decide
  simp [hup, show ("MOV" : String) ≠ "DSC" from by decide]

/-! ## Concrete data for counterexamples and witnesses -/

/-- A snapshot whose times are 2020-01-01 00:00:00.000000. -/
def stA : Stat := ⟨⟨2020, 1, 1, 0, 0, 0, 0⟩, ⟨2020, 1, 1, 0, 0, 0, 0⟩, ⟨2020, 1, 1, 0, 0, 0, 0⟩⟩

/-- Same second as `stA` but modified half a millisecond later. -/
def stB : Stat := ⟨⟨2020, 1, 1, 0, 0, 0, 0⟩, ⟨2020, 1, 1, 0, 0, 0, 500⟩, ⟨2020, 1, 1, 0, 0, 0, 0⟩⟩

/-- A later snapshot. -/
def stC : Stat := ⟨⟨2021, 6, 5, 12, 30, 45, 0⟩, ⟨2021, 6, 5, 12, 30, 45, 0⟩,
  ⟨2021, 6, 5, 12, 30, 45, 0⟩⟩

/-- A classified picture followed (in modification-time order) by an
unclassified file whose on-disk basename equals the picture's generated
name. -/
def clashList : List Mediafile :=
  [Mediafile.picture "DCIM/DSC_0001.JPG" stA 1 0,
   Mediafile.generic "DCIM/IMG_20200101_000000.jpg" stB]

def wl1 : List Mediafile :=
  [Mediafile.picture "DCIM/a" stA 0 0, Mediafile.picture "DCIM/b" stA 0 0,
   Mediafile.video "DCIM/c" stB 7 5]

def wl2 : List Mediafile :=
  [Mediafile.picture "DCIM/a" stA 0 0, Mediafile.picture "DCIM/b" stA 3 7,
   Mediafile.picture "DCIM/c" stB 1 1]

def wl5 : List Mediafile :=
  [Mediafile.generic "DCIM/x" stA, Mediafile.picture "DCIM/p" stA 1 2,
   Mediafile.video "DCIM/v" stB 1 2]

def wl6 : List Mediafile :=
  [Mediafile.generic "DCIM/x" stC, Mediafile.video "DCIM/v" stB 1 2]

def wl8a : List Mediafile :=
  [Mediafile.picture "DCIM/a" stA 7 3, Mediafile.generic "DCIM/x" stB]

def wl8b : List Mediafile :=
  [Mediafile.picture "DCIM/a" stA 0 9, Mediafile.generic "DCIM/x" stB]

/-! ## Claim theorems -/

/-- C1, counterexample: the claim that every output filename of a single
planner run is unique fails for mixed inputs.  The while-loop guards only
picture/video names; a generic record's basename is copied as-is, so a
generic file named like an already-generated name duplicates it.  The input
list here is sorted by modification time, as the planner's contract
requires. -/
theorem planner_output_names_unique_cex :
    sortedByMtime clashList ∧ ¬ (assignedNames clashList).Nodup := by
  constructor <;> decide

/-- C1, amended: within a single planner run, the names assigned to
classified records are unique; in particular, on an input of only classified
(picture/video) records, the assigned-name collection has no duplicates. -/
theorem planner_classified_output_names_unique (l : List Mediafile)
    (hreg : ∀ f ∈ l, f.isRegular) : (assignedNames l).Nodup := by
  have h := planAll_nodup l PlanState.init hreg List.nodup_nil
  rw [planAll_names] at h
  simpa [assignedNames, planRecords] using h

theorem planner_classified_output_names_unique_witness :
    (∀ f ∈ wl1, f.isRegular) ∧ (assignedNames wl1).Nodup :=
  ⟨by decide, planner_classified_output_names_unique wl1 (by decide)⟩

/-- C2: over a sorted list of pictures that all share the same
truncated-to-second modification time, the planner assigns convolutions
`0, 1, ..., N-1` in input order and the `N` generated names are pairwise
distinct. -/
theorem planner_same_second_pictures (l : List Mediafile) (d : Datetime)
    (hpics : ∀ f ∈ l, ∃ p st i c, f = Mediafile.picture p st i c ∧
      truncSec st.st_mtime = truncSec d)
    (_hsorted : sortedByMtime l) :
    (planRecords l).map Mediafile.convolution = List.range l.length ∧
    (assignedNames l).Nodup := by
  have h := planAll_same_second d l 0 0 0 hpics
  have hinit : (⟨0, 0, 0, (List.range 0).map (fun c => mkName "IMG" d c "jpg")⟩ : PlanState)
      = PlanState.init := rfl
  rw [hinit] at h
  have hassigned : assignedNames l
      = (List.range (0 + l.length)).map (fun c => mkName "IMG" d c "jpg") := by
    have h2 := planAll_names l PlanState.init
    rw [h.2] at h2
    simpa [assignedNames, planRecords] using h2.symm
  constructor
  · rw [show planRecords l = (planAll PlanState.init l).2 from rfl, h.1,
      List.range_eq_range']
  · rw [hassigned]
    exact (List.nodup_range _).map (mkName_injective "IMG" d "jpg")

theorem planner_same_second_pictures_witness :
    sortedByMtime wl2 ∧
    ((planRecords wl2).map Mediafile.convolution = List.range wl2.length ∧
      (assignedNames wl2).Nodup) :=
  ⟨by decide, planner_same_second_pictures wl2 ⟨2020, 1, 1, 0, 0, 0, 0⟩
    (by
      intro f hf
      simp only [wl2, List.mem_cons, List.not_mem_nil, or_false] at hf
      rcases hf with rfl | rfl | rfl
      · exact ⟨_, _, _, _, rfl, by decide⟩
      · exact ⟨_, _, _, _, rfl, by decide⟩
      · exact ⟨_, _, _, _, rfl, by decide⟩)
    (by decide)⟩

/-- Neither counterexample basename matches the specification grammar: the
grammar requires the extension literal to end the name (no trailing
newline) and ASCII digits only (the Arabic-Indic digits of the second name
are not ASCII). -/
theorem cex_names_match_no_grammar :
    (∀ h ds cs e, ¬ GrammarMatch ("DSC_0001.JPG\n".data) h ds cs e) ∧
    (∀ h ds cs e, ¬ GrammarMatch ("DSC_٠١٢٣.JPG".data) h ds cs e) := by
  constructor <;>
  · intro h ds cs e hg
    obtain ⟨hh, hlen, hdig, he, hcase⟩ := hg
    rcases ds with _ | ⟨d1, ds⟩
    · simp at hlen
    rcases ds with _ | ⟨d2, ds⟩
    · simp at hlen
    rcases ds with _ | ⟨d3, ds⟩
    · simp at hlen
    rcases ds with _ | ⟨d4, ds⟩
    · simp at hlen
    rcases ds with _ | ⟨d5, tl⟩
    swap
    · simp at hlen
    have hd1 : isAsciiDigit d1 := hdig d1 (by simp)
    rcases hh with rfl | rfl <;> rcases he with rfl | rfl <;>
        rcases hcase with ⟨-, hl⟩ | ⟨-, -, -, hl⟩ <;> simp at hl <;>
      (obtain ⟨h1, -⟩ := hl
       rw [← h1] at hd1
       exact absurd hd1 (by decide))

/-- C3, counterexample: the regular expression accepts strictly more than
the stated grammar, so "every non-matching name yields the generic
variant" fails.  `DSC_0001.JPG\n` (the `$` anchor also matches before a
trailing newline) and `DSC_٠١٢٣.JPG` (`\d` matches Unicode decimal digits,
parsed by `int`) match no instance of the grammar — `cex_names_match_no_grammar` —
yet both classify as pictures, not as generic records. -/
theorem classification_nonmatch_generic_cex :
    parseOne "DSC_0001.JPG\n" stA
      = [Mediafile.picture "DSC_0001.JPG\n" stA 1 0] ∧
    parseOne "DSC_٠١٢٣.JPG" stA
      = [Mediafile.picture "DSC_٠١٢٣.JPG" stA 123 0] ∧
    parseOne "DSC_0001.JPG\n" stA ≠ [Mediafile.generic "DSC_0001.JPG\n" stA] := by
  refine ⟨by decide, by decide, by decide⟩

/-- C3, amended: classification is total (exactly one record per input
path); every basename matching the specification grammar with head `DSC`
yields the picture variant with the captured index and convolution, head
`MOV` the video variant; and every basename the regular expression rejects
yields the generic record.  The regular expression, however, accepts
strictly more than the grammar (a trailing newline after the extension,
Unicode decimal digits in the captures), and those extra names classify as
picture/video rather than generic. -/
theorem classification_total_and_grammar_correct (path : String) (st : Stat) :
    (parseOne path st).length = 1 ∧
    (∀ ds cs e, GrammarMatch (basename path).data "DSC" ds cs e →
      parseOne path st = [Mediafile.picture path st (decVal ds) (decVal cs)]) ∧
    (∀ ds cs e, GrammarMatch (basename path).data "MOV" ds cs e →
      parseOne path st = [Mediafile.video path st (decVal ds) (decVal cs)]) ∧
    (matchName (basename path).data = none →
      parseOne path st = [Mediafile.generic path st]) := by
  refine ⟨?_, ?_, ?_, ?_⟩
  · rcases hm : matchName (basename path).data with _ | ⟨⟨h, i, cv⟩⟩
    · rw [parseOne_none hm]
      rfl
    · rcases matchName_heads hm with rfl | rfl
      · rw [parseOne_dsc hm]
        rfl
      · rw [parseOne_mov hm]
        rfl
  · intro ds cs e hg
    exact parseOne_dsc (matchName_complete hg)
  · intro ds cs e hg
    exact parseOne_mov (matchName_complete hg)
  · intro hm
    exact parseOne_none hm

theorem classification_total_and_grammar_correct_witness :
    (parseOne "DSC_0001.JPG" stA).length = 1 ∧
    parseOne "DSC_0001.JPG" stA
      = [Mediafile.picture "DSC_0001.JPG" stA (decVal ['0', '0', '0', '1']) (decVal [])] ∧
    parseOne "MOV_1234_56.mp4" stA
      = [Mediafile.video "MOV_1234_56.mp4" stA (decVal ['1', '2', '3', '4'])
          (decVal ['5', '6'])] ∧
    parseOne "random.txt" stA = [Mediafile.generic "random.txt" stA] :=
  ⟨(classification_total_and_grammar_correct "DSC_0001.JPG" stA).1,
   (classification_total_and_grammar_correct "DSC_0001.JPG" stA).2.1 _ _ "JPG" (by decide),
   (classification_total_and_grammar_correct "MOV_1234_56.mp4" stA).2.2.1 _ _ "mp4"
     (by decide),
   (classification_total_and_grammar_correct "random.txt" stA).2.2.2 (by decide)⟩

/-- C4: the generated filename of a classified record is a pure function of
its head, its modification time truncated to the second, and its
convolution (two classified records agreeing on those three agree on the
name), and changing `index` alone never changes the name. -/
theorem generated_filename_pure_function :
    (∀ f g : Mediafile, f.isRegular → g.isRegular → f.head = g.head →
      truncSec f.last_modification = truncSec g.last_modification →
      f.convolution = g.convolution → f.filename = g.filename) ∧
    (∀ (f : Mediafile) (i : Nat), (f.setIndex i).filename = f.filename) := by
  constructor
  · intro f g hf hg hh ht hc
    cases f with
    | generic p st => exact absurd hf (by simp [Mediafile.isRegular])
    | picture p st i c =>
      cases g with
      | generic q st2 => exact absurd hg (by simp [Mediafile.isRegular])
      | picture q st2 i2 c2 =>
        simp only [Mediafile.convolution] at hc
        subst hc
        exact mkName_truncSec ht
      | video q st2 i2 c2 =>
        have hne : ("IMG" : String) ≠ "VID" := by decide
        exact absurd hh hne
    | video p st i c =>
      cases g with
      | generic q st2 => exact absurd hg (by simp [Mediafile.isRegular])
      | picture q st2 i2 c2 =>
        have hne : ("VID" : String) ≠ "IMG" := by decide
        exact absurd hh hne
      | video q st2 i2 c2 =>
        simp only [Mediafile.convolution] at hc
        subst hc
        exact mkName_truncSec ht
  · intro f i
    cases f <;> rfl

theorem generated_filename_pure_function_witness :
    (Mediafile.picture "DCIM/a" stA 3 5).filename
        = (Mediafile.picture "DCIM/b" stB 9 5).filename ∧
    ((Mediafile.video "DCIM/c" stA 1 2).setIndex 7).filename
        = (Mediafile.video "DCIM/c" stA 1 2).filename :=
  ⟨generated_filename_pure_function.1 _ _ (by decide) (by decide) (by decide)
      (by decide) (by decide),
   generated_filename_pure_function.2 _ 7⟩

/-- C5: after processing a sequence containing at least one classified
record, `min_convolution` references a classified record of the sequence
whose convolution is greater-or-equal every classified record's convolution
(it tracks the maximum, despite its name), and every classified record
strictly before the referenced one has a strictly smaller convolution, so
on ties the first-encountered record wins. -/
theorem min_convolution_tracks_maximum (l : List Mediafile)
    (h : ∃ f ∈ l, f.isRegular) :
    ∃ t, (analyzeAll l).min_convolution = some t ∧ t ∈ l ∧ t.isRegular ∧
      (∀ f ∈ l, f.isRegular → f.convolution ≤ t.convolution) ∧
      ∃ l₁ l₂, l = l₁ ++ t :: l₂ ∧
        ∀ f ∈ l₁, f.isRegular → f.convolution < t.convolution := by
  have hne : l.filter Mediafile.isRegular ≠ [] := by
    obtain ⟨f, hf, hr⟩ := h
    intro hnil
    have hmem : f ∈ l.filter Mediafile.isRegular := List.mem_filter.2 ⟨hf, hr⟩
    rw [hnil] at hmem
    exact absurd hmem (List.not_mem_nil f)
  obtain ⟨t, heq, hmem, hbest, l₁, l₂, hsplit, hfirst⟩ :=
    foldl_updBy_none_spec convBetter
      (fun f => by simp only [convBetter]; omega)
      (fun {a b c} hab hbc => by simp only [convBetter] at hab hbc ⊢; omega)
      (fun {a b c} hac hbc => by simp only [convBetter] at hac hbc ⊢; omega)
      _ hne
  have hmem2 := List.mem_filter.1 hmem
  obtain ⟨L₁, L₂, hLeq, hLfil⟩ := filter_split Mediafile.isRegular l l₁ l₂ t hsplit
  refine ⟨t, ?_, hmem2.1, hmem2.2, ?_, L₁, L₂, hLeq, ?_⟩
  · have hcomp : (analyzeAll l).min_convolution
        = (l.filter Mediafile.isRegular).foldl (updBy convBetter) none :=
      analyzeAll_min_convolution l Analysis.init
    rw [hcomp]
    exact heq
  · intro f hf hr
    have hbf := hbest f (List.mem_filter.2 ⟨hf, hr⟩)
    simp only [convBetter] at hbf
    omega
  · intro f hf hr
    have hf1 : f ∈ l₁ := by
      rw [← hLfil]
      exact List.mem_filter.2 ⟨hf, hr⟩
    have hbf := hfirst f hf1
    simp only [convBetter] at hbf
    omega

theorem min_convolution_tracks_maximum_witness :
    (∃ f ∈ wl5, f.isRegular) ∧
    (∃ t, (analyzeAll wl5).min_convolution = some t ∧ t ∈ wl5 ∧ t.isRegular ∧
      (∀ f ∈ wl5, f.isRegular → f.convolution ≤ t.convolution) ∧
      ∃ l₁ l₂, wl5 = l₁ ++ t :: l₂ ∧
        ∀ f ∈ l₁, f.isRegular → f.convolution < t.convolution) :=
  ⟨⟨Mediafile.picture "DCIM/p" stA 1 2, by decide, by decide⟩,
   min_convolution_tracks_maximum wl5
     ⟨Mediafile.picture "DCIM/p" stA 1 2, by decide, by decide⟩⟩

/-- C6: over a non-empty sequence, each of the six timestamp trackers holds
a record of the sequence whose corresponding timestamp is less-or-equal
(min trackers) or greater-or-equal (max trackers) that timestamp of every
record, and every record strictly before the referenced one is strictly
worse, so on ties the first-encountered record wins. -/
theorem timestamp_trackers_extremal_first_wins (l : List Mediafile) (hne : l ≠ []) :
    IsMinTracker Mediafile.last_access l (analyzeAll l).min_atime ∧
    IsMaxTracker Mediafile.last_access l (analyzeAll l).max_atime ∧
    IsMinTracker Mediafile.last_modification l (analyzeAll l).min_mtime ∧
    IsMaxTracker Mediafile.last_modification l (analyzeAll l).max_mtime ∧
    IsMinTracker Mediafile.last_metadata_change l (analyzeAll l).min_ctime ∧
    IsMaxTracker Mediafile.last_metadata_change l (analyzeAll l).max_ctime := by
  refine ⟨?_, ?_, ?_, ?_, ?_, ?_⟩
  · have h : (analyzeAll l).min_atime
        = l.foldl (updBy (minBetter Mediafile.last_access)) none :=
      analyzeAll_min_atime l Analysis.init
    rw [h]
    exact minTracker_correct _ l hne
  · have h : (analyzeAll l).max_atime
        = l.foldl (updBy (maxBetter Mediafile.last_access)) none :=
      analyzeAll_max_atime l Analysis.init
    rw [h]
    exact maxTracker_correct _ l hne
  · have h : (analyzeAll l).min_mtime
        = l.foldl (updBy (minBetter Mediafile.last_modification)) none :=
      analyzeAll_min_mtime l Analysis.init
    rw [h]
    exact minTracker_correct _ l hne
  · have h : (analyzeAll l).max_mtime
        = l.foldl (updBy (maxBetter Mediafile.last_modification)) none :=
      analyzeAll_max_mtime l Analysis.init
    rw [h]
    exact maxTracker_correct _ l hne
  · have h : (analyzeAll l).min_ctime
        = l.foldl (updBy (minBetter Mediafile.last_metadata_change)) none :=
      analyzeAll_min_ctime l Analysis.init
    rw [h]
    exact minTracker_correct _ l hne
  · have h : (analyzeAll l).max_ctime
        = l.foldl (updBy (maxBetter Mediafile.last_metadata_change)) none :=
      analyzeAll_max_ctime l Analysis.init
    rw [h]
    exact maxTracker_correct _ l hne

theorem timestamp_trackers_extremal_first_wins_witness :
    wl6 ≠ [] ∧
    (IsMinTracker Mediafile.last_access wl6 (analyzeAll wl6).min_atime ∧
      IsMaxTracker Mediafile.last_access wl6 (analyzeAll wl6).max_atime ∧
      IsMinTracker Mediafile.last_modification wl6 (analyzeAll wl6).min_mtime ∧
      IsMaxTracker Mediafile.last_modification wl6 (analyzeAll wl6).max_mtime ∧
      IsMinTracker Mediafile.last_metadata_change wl6 (analyzeAll wl6).min_ctime ∧
      IsMaxTracker Mediafile.last_metadata_change wl6 (analyzeAll wl6).max_ctime) :=
  ⟨by decide, timestamp_trackers_extremal_first_wins wl6 (by decide)⟩

/-- C7, counterexample: a lower-case head (`dsc_0001.JPG`) is not matched
case-insensitively: classification yields the generic record, not the
picture variant the claim predicts. -/
theorem head_case_insensitive_cex :
    parseOne "dsc_0001.JPG" stA = [Mediafile.generic "dsc_0001.JPG" stA] ∧
    parseOne "dsc_0001.JPG" stA ≠ [Mediafile.picture "dsc_0001.JPG" stA 1 0] := by
  constructor <;> decide

/-- C7, amended: the head token is matched case-sensitively — a successful
match can only capture the literal upper-case heads (so the `upper()`
normalization is a no-op on them), any name starting with a lower-case `d`
or `m` never matches, and in particular `dsc_0001.JPG` classifies as the
generic record. -/
theorem head_match_case_sensitive :
    (∀ (l : List Char) (h : String) (i cv : Nat),
      matchName l = some (h, i, cv) → (h = "DSC" ∨ h = "MOV") ∧ strUpper h = h) ∧
    (∀ cs : List Char, matchName ('d' :: cs) = none) ∧
    (∀ cs : List Char, matchName ('m' :: cs) = none) ∧
    (∀ st : Stat, parseOne "dsc_0001.JPG" st = [Mediafile.generic "dsc_0001.JPG" st]) := by
  refine ⟨?_, matchName_lower_d, matchName_lower_m, ?_⟩
  · intro l h i cv hm
    rcases matchName_heads hm with rfl | rfl
    · exact ⟨Or.inl rfl, by decide⟩
    · exact ⟨Or.inr rfl, by decide⟩
  · intro st
    apply parseOne_none
    decide

theorem head_match_case_sensitive_witness :
    matchName ("DSC_0001.JPG".data) = some ("DSC", 1, 0) ∧
    (("DSC" = "DSC" ∨ "DSC" = "MOV") ∧ strUpper "DSC" = "DSC") ∧
    matchName ('d' :: "sc_0001.JPG".data) = none ∧
    matchName ('m' :: "ov_0001.mp4".data) = none ∧
    parseOne "dsc_0001.JPG" stA = [Mediafile.generic "dsc_0001.JPG" stA] :=
  ⟨by decide,
   head_match_case_sensitive.1 ("DSC_0001.JPG".data) "DSC" 1 0 (by decide),
   head_match_case_sensitive.2.1 _,
   head_match_case_sensitive.2.2.1 _,
   head_match_case_sensitive.2.2.2 stA⟩

/-- C8: the planner's assignment is deterministic, a pure function of the
per-record shape (variant, path, stat snapshot) in list order: two runs over
inputs agreeing on those — in particular two runs over the same sorted list,
whatever stale `index`/`convolution` values the records carry — produce
identical source-to-destination mappings and identical assigned names. -/
theorem planner_assignment_deterministic (l₁ l₂ : List Mediafile)
    (h : List.Forall₂ sameShape l₁ l₂) :
    planMapping l₁ = planMapping l₂ ∧ assignedNames l₁ = assignedNames l₂ := by
  have he := planAll_sameShape PlanState.init h
  constructor <;> simp [planMapping, assignedNames, planRecords, he]

theorem planner_assignment_deterministic_witness :
    planMapping wl8a = planMapping wl8b ∧ assignedNames wl8a = assignedNames wl8b :=
  planner_assignment_deterministic wl8a wl8b
    (by
      refine List.Forall₂.cons ?_ (List.Forall₂.cons ?_ List.Forall₂.nil) <;>
        exact ⟨rfl, rfl⟩)

/-- C9: after aggregation, `total` equals the number of records fed in, and
`unusual_filenames` is exactly the generic records in encounter order. -/
theorem total_and_unusual_correct (l : List Mediafile) :
    (analyzeAll l).total = l.length ∧
    (analyzeAll l).unusual_filenames = l.filter (fun f => !f.isRegular) := by
  constructor
  · have h : (analyzeAll l).total = Analysis.init.total + l.length := analyzeAll_total l _
    simpa [Analysis.init] using h
  · have h : (analyzeAll l).unusual_filenames
        = Analysis.init.unusual_filenames ++ l.filter (fun f => !f.isRegular) :=
      analyzeAll_unusual l _
    simpa [Analysis.init] using h

/-- C10: the analysis report's reads are defined exactly under the implicit
precondition: `min_convolution` is set iff some record was classified (so
reading `min_convolution.convolution` fails when no record matched the
grammar), and the six time-table trackers are set iff the sequence was
non-empty (so the time table fails on an empty directory). -/
theorem report_defined_iff_regular_present (l : List Mediafile) :
    ((analyzeAll l).min_convolution.isSome ↔ ∃ f ∈ l, f.isRegular) ∧
    ((analyzeAll l).min_atime.isSome ↔ l ≠ []) ∧
    ((analyzeAll l).max_atime.isSome ↔ l ≠ []) ∧
    ((analyzeAll l).min_mtime.isSome ↔ l ≠ []) ∧
    ((analyzeAll l).max_mtime.isSome ↔ l ≠ []) ∧
    ((analyzeAll l).min_ctime.isSome ↔ l ≠ []) ∧
    ((analyzeAll l).max_ctime.isSome ↔ l ≠ []) := by
  refine ⟨?_, ?_, ?_, ?_, ?_, ?_, ?_⟩
  · have h : (analyzeAll l).min_convolution
        = (l.filter Mediafile.isRegular).foldl (updBy convBetter) none :=
      analyzeAll_min_convolution l Analysis.init
    rw [h, foldl_updBy_isSome]
    constructor
    · intro hne
      rcases hl : l.filter Mediafile.isRegular with _ | ⟨f, fs⟩
      · exact absurd hl hne
      · have hf : f ∈ l.filter Mediafile.isRegular := by
          rw [hl]
          exact List.mem_cons_self _ _
        have hm := List.mem_filter.1 hf
        exact ⟨f, hm.1, hm.2⟩
    · rintro ⟨f, hf, hr⟩ hnil
      have hmem : f ∈ l.filter Mediafile.isRegular := List.mem_filter.2 ⟨hf, hr⟩
      rw [hnil] at hmem
      exact absurd hmem (List.not_mem_nil f)
  · have h : (analyzeAll l).min_atime
        = l.foldl (updBy (minBetter Mediafile.last_access)) none :=
      analyzeAll_min_atime l Analysis.init
    rw [h, foldl_updBy_isSome]
  · have h : (analyzeAll l).max_atime
        = l.foldl (updBy (maxBetter Mediafile.last_access)) none :=
      analyzeAll_max_atime l Analysis.init
    rw [h, foldl_updBy_isSome]
  · have h : (analyzeAll l).min_mtime
        = l.foldl (updBy (minBetter Mediafile.last_modification)) none :=
      analyzeAll_min_mtime l Analysis.init
    rw [h, foldl_updBy_isSome]
  · have h : (analyzeAll l).max_mtime
        = l.foldl (updBy (maxBetter Mediafile.last_modification)) none :=
      analyzeAll_max_mtime l Analysis.init
    rw [h, foldl_updBy_isSome]
  · have h : (analyzeAll l).min_ctime
        = l.foldl (updBy (minBetter Mediafile.last_metadata_change)) none :=
      analyzeAll_min_ctime l Analysis.init
    rw [h, foldl_updBy_isSome]
  · have h : (analyzeAll l).max_ctime
        = l.foldl (updBy (maxBetter Mediafile.last_metadata_change)) none :=
      analyzeAll_max_ctime l Analysis.init
    rw [h, foldl_updBy_isSome]

end DCIM
